import Mathlib

/-!
Verification of the merkledb trie-view subsystem (src/x/merkledb/node.go and
src/x/merkledb/stateless.go).

Modelling conventions.

* A trie key is a sequence of tokens.  The Go `Key` packs tokens (1/2/4/8-bit
  symbols) into a byte slice together with a bit length; all operations used by
  the verified code (`Token`, `Take`, `Skip`, `Extend`, prefix tests,
  `getLengthOfCommonPrefix`) act on whole tokens, so a key is embedded as
  `List Nat` of its tokens.  `key.go` itself is not under src/, so the key
  operations are modelled from the spec, section 4.1 ("length, Token(i),
  Take(n), Skip(n), Extend(t, suffix), HasPrefix"); `Take`/`Skip`/`Token`
  become `List.take`/`List.drop`/indexing.  Byte keys appearing at API
  boundaries (iterator keys, range-proof bounds) are identified with token
  keys (tokens = bytes, token size 8), which the spec permits.
* Go maps become association lists (first match wins on lookup; update
  replaces in place, insert prepends/appends).
* Hashes are opaque external collaborators (spec section 1): digests are
  passed as a function argument `hash : Bytes → Bytes` where needed, and the
  cached 32-byte node IDs are plain `Nat` tags that the structural code only
  copies around, exactly as the Go code does between recomputations.
* The structural overlay state of a `trieView` is flattened: the view's
  `changes.nodes` map laid over the parent chain is a single resolved
  key-to-node map (`Trie`), mutation of a node recorded by pointer becomes a
  map update at the node's key, and `changes.nodes[k].after = nil` (deletion)
  becomes removal of `k` from the map.  The root node (a field `t.root` in Go,
  always reachable) lives in the map at the empty key.
* The view is assumed valid (not invalidated) during structural
  materialisation; invalidation of the read path is modelled separately with
  explicit observation points (`tvGetValue` below), since Go re-reads the
  `invalidated` flag around the parent call.
-/

/-- Byte strings are lists of naturals (one per byte). -/
abbrev Bytes := List Nat

/-- Trie keys are sequences of tokens (see the modelling conventions above). -/
abbrev Key := List Nat

/-- HashLength from node.go line 13: values of at least this many bytes are
digested before entering a node hash. -/
def HashLength : Nat := 32

/-- Errors surfaced by the embedded functions, mirroring the error values of
node.go lines 137-147 (plus ErrInvalidMaxLength, declared elsewhere in the
repository and listed in spec section 6, and a NotFound for
database.ErrNotFound). MissingNode stands for a node read that fails
because the referenced node is in no layer of the view stack. -/
inductive MerkleErr where
  | Invalid
  | NodesAlreadyCalculated
  | GetPathToFailure
  | StartAfterEnd
  | InvalidMaxLength
  | NotFound
  | MissingNode
deriving DecidableEq, Repr

/-- Child entry of a node (node.go lines 21-25): compressed key suffix, cached
Merkle ID of the child (opaque; zero `0` is `ids.Empty`), and the cached
has-value flag. -/
structure Child where
  compressedKey : Key
  id : Nat
  hasValue : Bool
deriving DecidableEq, Repr

/-- Trie node (node.go lines 16-19): optional value plus children keyed by
their first token.  The Go `map[byte]child` is an association list with
distinct token keys. -/
structure Node where
  value : Option Bytes
  children : List (Nat × Child)
deriving DecidableEq, Repr

/-- hasValue (node.go lines 45-47). -/
def Node.hasValue (n : Node) : Bool := n.value.isSome

/-- Lookup in a children map. -/
def lookupChild : List (Nat × Child) → Nat → Option Child
  | [], _ => none
  | (t, c) :: rest, tok => if t = tok then some c else lookupChild rest tok

/-- setChildEntry (node.go lines 77-79): replaces the entry at the token or
installs a new one. -/
def setChildEntry : List (Nat × Child) → Nat → Child → List (Nat × Child)
  | [], tok, c => [(tok, c)]
  | (t, c0) :: rest, tok, c =>
      if t = tok then (tok, c) :: rest else (t, c0) :: setChildEntry rest tok c

/-- Removal of a child entry (`delete(parent.children, tok)` in Go). -/
def deleteChild (cs : List (Nat × Child)) (tok : Nat) : List (Nat × Child) :=
  cs.filter (fun p => p.1 ≠ tok)

/-- The resolved node map of a view: every key reachable through the view
(changes.nodes overlaid over the ancestor chain) mapped to its node. -/
abbrev Trie := List (Key × Node)

/-- Node lookup in the resolved map (trieView.getNode, node.go lines
1116-1133, with the parent chain flattened; a missing key is
database.ErrNotFound / a deleted changes.nodes entry). -/
def lookupNode : Trie → Key → Option Node
  | [], _ => none
  | (k, n) :: rest, key => if k = key then some n else lookupNode rest key

/-- Store (or overwrite) a node at a key: a recordNodeChange / recordNewNode
landing in changes.nodes, flattened. -/
def setNode : Trie → Key → Node → Trie
  | [], key, n => [(key, n)]
  | (k, n0) :: rest, key, n =>
      if k = key then (key, n) :: rest else (k, n0) :: setNode rest key n

/-- Remove the node at a key (changes.nodes[k].after = nil, flattened). -/
def deleteNode : Trie → Key → Trie
  | [], _ => []
  | (k, n) :: rest, key =>
      if k = key then deleteNode rest key else (k, n) :: deleteNode rest key

/-- getValueDigest (node.go lines 69-74): a present value shorter than
HashLength is embedded as is, any other present value is replaced by its
32-byte digest.  The hash primitive is an opaque collaborator and is passed
in as a function. -/
def getValueDigest (hash : Bytes → Bytes) (val : Option Bytes) : Option Bytes :=
  match val with
  | none => none
  | some v => if v.length < HashLength then some v else some (hash v)

/-- Token-level prefix test: `first` is a leading segment of `second`.  This is
Key.HasPrefix / iteratedHasPrefix restricted to whole tokens (spec section
4.1; key.go is not under src/).  A compressed key longer than the remaining
key is not a prefix. -/
def isTokenPrefixOf : Key → Key → Bool
  | [], _ => true
  | _ :: _, [] => false
  | a :: as, b :: bs => a = b && isTokenPrefixOf as bs

/-- Length of the longest common token prefix of two keys. -/
def commonTokenRun : Key → Key → Nat
  | a :: as, b :: bs => if a = b then commonTokenRun as bs + 1 else 0
  | _, _ => 0

/-- getLengthOfCommonPrefix (node.go lines 1017-1024): counts matching tokens
between `first` and `second` offset by `secondOffset`.  The Go loop advances
`commonIndex` by one token while both keys have a token at the current
position and the tokens agree, which is the common run of `first` and
`second.drop secondOffset`. -/
def getLengthOfCommonPrefix (first second : Key) (secondOffset : Nat) : Nat :=
  commonTokenRun first (second.drop secondOffset)

/-- A before/after value change (changeSummary entry for changes.values). -/
structure VChange where
  before : Option Bytes
  after : Option Bytes
deriving DecidableEq, Repr

/-- Lookup in the value-change map. -/
def lookupV : List (Key × VChange) → Key → Option VChange
  | [], _ => none
  | (k, c) :: rest, key => if k = key then some c else lookupV rest key

/-- Replace the `after` field of an existing value change, keeping `before`
(recordValueChange's update path, node.go lines 1094-1097). -/
def setAfterV : List (Key × VChange) → Key → Option Bytes → List (Key × VChange)
  | [], _, _ => []
  | (k, c) :: rest, key, v =>
      if k = key then (key, { c with after := v }) :: rest
      else (k, c) :: setAfterV rest key v

/-- The mutable state of a trieView during structural materialisation:
the one-shot mutation guard, the value-change map, the flattened value view
of the ancestor chain, and the resolved node map (see the modelling
conventions at the top of the file). -/
structure ViewState where
  nodesAlreadyCalculated : Bool
  values : List (Key × VChange)
  parentValues : List (Key × Bytes)
  trie : Trie
deriving DecidableEq, Repr

/-- Value lookup in the flattened ancestor chain (the parent trie's getValue,
which can only miss, never fail, once the chain is flattened to a map). -/
def parentGetValue (st : ViewState) (key : Key) : Option Bytes :=
  (st.parentValues.find? (fun p => p.1 = key)).map Prod.snd

/-- trieView.getValue (node.go lines 735-758) for a valid view: the view's own
change wins, otherwise the parent chain is consulted.  The invalidation
observation points of getValue are modelled separately by `tvGetValue`. -/
def getValueM (st : ViewState) (key : Key) : Option Bytes :=
  match lookupV st.values key with
  | some c => c.after
  | none => parentGetValue st key

/-- recordValueChange (node.go lines 1088-1109): rejected after node
calculation; an existing change keeps its original `before` and gets the new
`after`; a first touch captures `before` from the parent chain. -/
def recordValueChange (st : ViewState) (key : Key) (value : Option Bytes) :
    Except MerkleErr ViewState :=
  if st.nodesAlreadyCalculated then .error .NodesAlreadyCalculated
  else match lookupV st.values key with
    | some _ => .ok { st with values := setAfterV st.values key value }
    | none =>
        .ok { st with
              values := (key, ⟨parentGetValue st key, value⟩) :: st.values }

/-- recordKeyChange (node.go lines 1051-1082), flattened: storing an `after`
node resolves to a map write, a nil `after` to a map removal; the `before`
bookkeeping (only used for history) vanishes in the flattening. -/
def recordKeyChange (st : ViewState) (key : Key) (after : Option Node) :
    Except MerkleErr ViewState :=
  if st.nodesAlreadyCalculated then .error .NodesAlreadyCalculated
  else match after with
    | some n => .ok { st with trie := setNode st.trie key n }
    | none => .ok { st with trie := deleteNode st.trie key }

/-- recordNodeChange (node.go lines 1034-1036). -/
def recordNodeChange (st : ViewState) (key : Key) (after : Node) :
    Except MerkleErr ViewState :=
  recordKeyChange st key (some after)

/-- recordNewNode (node.go lines 1028-1030). -/
def recordNewNode (st : ViewState) (key : Key) (after : Node) :
    Except MerkleErr ViewState :=
  recordKeyChange st key (some after)

/-- recordNodeDeleted (node.go lines 1040-1046): a deletion of the empty
(root) key is recorded as a change instead, so the root node is never
removed. -/
def recordNodeDeleted (st : ViewState) (key : Key) (after : Node) :
    Except MerkleErr ViewState :=
  if key = [] then recordKeyChange st key (some after)
  else recordKeyChange st key none

/-- Loop body of visitPathToKey (node.go lines 868-898), with explicit fuel in
place of the Go loop.  Walks from `currentNode` (at `currentKey`, a take-prefix
of `key`) towards `key`: while the key is not fully matched, the child at the
next token must exist and its compressed key must be a leading segment of the
remaining key, otherwise the walk stops at the current node.  The fuel is
only a recursion bound: each step extends `currentKey` by at least one token,
so `key.length` steps always suffice and the fuel-exhaustion branch is
unreachable from `visitPathToKey`. -/
def visitAux (t : Trie) (key : Key) (currentKey : Key) (currentNode : Node) :
    Nat → Except MerkleErr (List (Key × Node))
  | 0 => .ok [(currentKey, currentNode)]
  | fuel + 1 =>
    if currentKey.length < key.length then
      match lookupChild currentNode.children (key.getD currentKey.length 0) with
      | none => .ok [(currentKey, currentNode)]
      | some entry =>
        if isTokenPrefixOf entry.compressedKey (key.drop (currentKey.length + 1)) then
          let nextKey := key.take (currentKey.length + 1 + entry.compressedKey.length)
          match lookupNode t nextKey with
          | none => .error .MissingNode
          | some nextNode =>
            match visitAux t key nextKey nextNode fuel with
            | .error e => .error e
            | .ok path => .ok ((currentKey, currentNode) :: path)
        else .ok [(currentKey, currentNode)]
    else .ok [(currentKey, currentNode)]

/-- visitPathToKey (node.go lines 868-898): the nodes along the path to `key`,
starting at the root (which the Go view holds as a field and this model keeps
in the map at the empty key).  The first node is the root; the last is the
node with `key` or with its longest materialised prefix. -/
def visitPathToKey (t : Trie) (key : Key) : Except MerkleErr (List (Key × Node)) :=
  match lookupNode t [] with
  | none => .error .MissingNode
  | some root => visitAux t key [] root key.length

/-- compressNodePath (node.go lines 822-861): given `parent?` (the parent of
`node`, `none` at the root) and `node` at `nodeKey`, if the node is not the
root, has exactly one child, and carries no value *as seen through the view's
value map* (`t.getValue(nodeKey)`), the node is deleted and the parent's
child entry is rewired to the grandchild with the concatenated compressed
key; otherwise nothing happens.  Does not recurse. -/
def compressNodePathT (st : ViewState) (parent? : Option (Key × Node))
    (node : Node) (nodeKey : Key) : Except MerkleErr ViewState :=
  if st.nodesAlreadyCalculated then .error .NodesAlreadyCalculated
  else
    match parent? with
    | none => .ok st
    | some (parentKey, parentNode) =>
      if node.children.length ≠ 1 || (getValueM st nodeKey).isSome then .ok st
      else match node.children with
        | [(index, entry)] =>
          match recordNodeDeleted st nodeKey node with
          | .error e => .error e
          | .ok st1 =>
            let childKey := nodeKey ++ index :: entry.compressedKey
            let parent' := { parentNode with
              children := setChildEntry parentNode.children
                (childKey.getD parentKey.length 0)
                ⟨childKey.drop (parentKey.length + 1), entry.id, entry.hasValue⟩ }
            recordNodeChange st1 parentKey parent'
        | _ => .ok st

/-- trieView.insert (node.go lines 924-1015), flattened.  Records the value
change, walks to the closest node, and either updates the exact node's value,
hangs a fresh leaf off the closest node, or splits the edge to the existing
child with a new branch node.  The error branch returns ErrGetPathToFailure
when the existing child's compressed key is no longer than the common prefix
(node.go lines 977-982). -/
def insertT (st : ViewState) (key : Key) (value : Bytes) :
    Except MerkleErr ViewState :=
  if st.nodesAlreadyCalculated then .error .NodesAlreadyCalculated
  else match recordValueChange st key (some value) with
  | .error e => .error e
  | .ok st1 =>
    match visitPathToKey st1.trie key with
    | .error e => .error e
    | .ok path =>
      match path.getLast? with
      | none => .error .MissingNode
      | some (closestKey, closestNode) =>
        if closestKey = key then
          .ok { st1 with trie := setNode st1.trie key { closestNode with value := some value } }
        else
          match lookupChild closestNode.children (key.getD closestKey.length 0) with
          | none =>
            let leaf : Node := { value := some value, children := [] }
            let closest' := { closestNode with
              children := setChildEntry closestNode.children
                (key.getD closestKey.length 0)
                ⟨key.drop (closestKey.length + 1), 0, false⟩ }
            .ok { st1 with
                  trie := setNode (setNode st1.trie closestKey closest') key leaf }
          | some ec =>
            let cpl := getLengthOfCommonPrefix ec.compressedKey key (closestKey.length + 1)
            if ec.compressedKey.length ≤ cpl then .error .GetPathToFailure
            else
              let branchKey := key.take (closestKey.length + 1 + cpl)
              let closest' := { closestNode with
                children := setChildEntry closestNode.children
                  (branchKey.getD closestKey.length 0)
                  ⟨branchKey.drop (closestKey.length + 1), 0, false⟩ }
              let oldChildEntry : Nat × Child :=
                (ec.compressedKey.getD cpl 0,
                 ⟨ec.compressedKey.drop (cpl + 1), ec.id, ec.hasValue⟩)
              if key.length = branchKey.length then
                let branch : Node :=
                  { value := some value,
                    children := setChildEntry [] oldChildEntry.1 oldChildEntry.2 }
                .ok { st1 with
                      trie := setNode (setNode st1.trie closestKey closest') branchKey branch }
              else
                let leaf : Node := { value := some value, children := [] }
                let branch : Node :=
                  { value := none,
                    children :=
                      setChildEntry
                        (setChildEntry []
                          (key.getD branchKey.length 0)
                          ⟨key.drop (branchKey.length + 1), 0, false⟩)
                        oldChildEntry.1 oldChildEntry.2 }
                .ok { st1 with
                      trie := setNode (setNode (setNode st1.trie closestKey closest') key leaf)
                        branchKey branch }

/-- trieView.remove (node.go lines 761-812), flattened.  Records the removal as
a value change, then returns unless the captured `before` shows a value to
remove; otherwise walks to the key, clears the last visited node's value and
either compresses it into its parent (if it keeps children) or deletes it,
unlinks it from its parent, and compresses the parent into the grandparent.
Note the Go code never checks that the walk landed exactly on `key`. -/
def removeT (st : ViewState) (key : Key) : Except MerkleErr ViewState :=
  if st.nodesAlreadyCalculated then .error .NodesAlreadyCalculated
  else match recordValueChange st key none with
  | .error e => .error e
  | .ok st1 =>
    match lookupV st1.values key with
    | none => .ok st1
    | some val =>
      if val.before.isNone || val.after.isSome then .ok st1
      else match visitPathToKey st1.trie key with
      | .error e => .error e
      | .ok path =>
        match path.reverse with
        | [] => .ok st1
        | (targetKey, target) :: rest =>
          let target' : Node := { target with value := none }
          let st2 := { st1 with trie := setNode st1.trie targetKey target' }
          if target'.children.length ≠ 0 then
            compressNodePathT st2 rest.head? target' targetKey
          else
            match recordNodeDeleted st2 targetKey target' with
            | .error e => .error e
            | .ok st3 =>
              match rest with
              | [] => .ok st3
              | (parentKey, parentNode) :: rest2 =>
                let parent' := { parentNode with
                  children := deleteChild parentNode.children
                    (targetKey.getD parentKey.length 0) }
                let st4 := { st3 with trie := setNode st3.trie parentKey parent' }
                compressNodePathT st4 rest2.head? parent' parentKey

/-- One iteration of the materialisation loop in calculateNodeIDs (node.go
lines 328-338): a nothing `after` is a removal, a present one an insert. -/
def applyOp (st : ViewState) (op : Key × Option Bytes) : Except MerkleErr ViewState :=
  match op.2 with
  | none => removeT st op.1
  | some v => insertT st op.1 v

/-- The materialisation loop over a given processing order of changes.values
(Go map iteration order is unspecified, so the order is a parameter). -/
def applyOps (st : ViewState) : List (Key × Option Bytes) → Except MerkleErr ViewState
  | [] => .ok st
  | op :: ops =>
    match applyOp st op with
    | .error e => .error e
    | .ok st' => applyOps st' ops

/-- View construction (newTrieView, node.go lines 249-296): every batch
operation is recorded as a value change only; `parentValues` and `trie` are
the flattened value and node views of the parent chain. -/
def buildView (parentValues : List (Key × Bytes)) (trie : Trie)
    (ops : List (Key × Option Bytes)) : Except MerkleErr ViewState :=
  let st0 : ViewState :=
    { nodesAlreadyCalculated := false, values := [], parentValues, trie }
  ops.foldlM (fun st op => recordValueChange st op.1 op.2) st0

/-- The operations still pending in a view's value-change map, in the model's
processing order. -/
def pendingOps (st : ViewState) : List (Key × Option Bytes) :=
  st.values.map (fun p => (p.1, p.2.after))

/-- recordNodeDeleted of statelessView (stateless.go lines 641-647), flattened
like the trieView variant: the root key is recorded as changed, any other key
is removed from the map. -/
def recordNodeDeletedS (st : Trie) (key : Key) (after : Node) : Trie :=
  if key = [] then setNode st key after else deleteNode st key

/-- Chain walk inside statelessView.compressNodePath (stateless.go lines
427-437): while the current node has exactly one child and no *structural*
value, delete it and step into its single child.  The fuel is a recursion
bound only: every iteration deletes one node of the map and the visited keys
strictly lengthen, so `st.length + 1` always suffices. -/
def compressLoopS (st : Trie) : Nat → Key → Node →
    Except MerkleErr (Trie × Key × Node)
  | 0, nodeKey, node => .ok (st, nodeKey, node)
  | fuel + 1, nodeKey, node =>
    if node.children.length = 1 && !node.hasValue then
      match node.children with
      | [(tok, entry)] =>
        let st1 := recordNodeDeletedS st nodeKey node
        let childKey := nodeKey ++ tok :: entry.compressedKey
        match lookupNode st1 childKey with
        | none => .error .NotFound
        | some child => compressLoopS st1 fuel childKey child
      | _ => .ok (st, nodeKey, node)
    else .ok (st, nodeKey, node)

/-- statelessView.compressNodePath (stateless.go lines 420-443): unlike the
trieView variant it iterates down chains of value-less single-child nodes
(testing the node's structural value, not the view's pending value), then
rewires the parent's child entry directly to the first node that does not
qualify.  Cached node-resident IDs are opaque and not modelled (the legacy
`addChild` copies `node.id`, here a zero tag); the legacy child entry has no
has-value flag, so the field is filled with the attached node's value
presence. -/
def compressNodePathS (st : Trie) (parentKey : Key) (parent : Node)
    (nodeKey : Key) (node : Node) : Except MerkleErr Trie :=
  if node.children.length ≠ 1 || node.hasValue then .ok st
  else
    match compressLoopS st (st.length + 1) nodeKey node with
    | .error e => .error e
    | .ok (st1, fk, fn) =>
      let parent' := { parent with
        children := setChildEntry parent.children (fk.getD parentKey.length 0)
          ⟨fk.drop (parentKey.length + 1), 0, fn.hasValue⟩ }
      .ok (setNode st1 parentKey parent')

/-- statelessView.deleteEmptyNodes (stateless.go lines 450-475), after the
last path node: climbing the reversed path, delete every node with no value
and no children, unlink it from its parent, and finally compress the first
surviving node into its parent (if any parent is left). -/
def deleteEmptyNodesAux (st : Trie) (nodeKey : Key) (node : Node) :
    List (Key × Node) → Except MerkleErr Trie
  | [] => .ok st
  | (pk, pn) :: rest =>
    if node.children.length = 0 && !node.hasValue then
      let st1 := recordNodeDeletedS st nodeKey node
      let pn' := { pn with
        children := deleteChild pn.children (nodeKey.getD pk.length 0) }
      let st2 := setNode st1 pk pn'
      deleteEmptyNodesAux st2 pk pn' rest
    else
      compressNodePathS st pk pn nodeKey node

/-- statelessView.insertIntoTrie (stateless.go lines 538-631), flattened.  The
walk (getPathTo, stateless.go lines 482-517) is token-for-token the loop of
visitPathToKey and is shared.  Note the legacy code checks
ErrGetPathToFailure only after creating the branch (the recorded
intermediate mutations of the error path are not observable here because the
embedding aborts without a state). -/
def insertIntoTrieS (st : Trie) (key : Key) (value : Bytes) :
    Except MerkleErr Trie :=
  match visitPathToKey st key with
  | .error e => .error e
  | .ok path =>
    match path.reverse with
    | [] => .ok st
    | (closestKey, closestNode) :: _ =>
      if closestKey = key then
        .ok (setNode st key { closestNode with value := some value })
      else
        let remainingKey := key.drop (closestKey.length + 1)
        match lookupChild closestNode.children (key.getD closestKey.length 0) with
        | none =>
          let closest' := { closestNode with
            children := setChildEntry closestNode.children
              (key.getD closestKey.length 0)
              ⟨key.drop (closestKey.length + 1), 0, false⟩ }
          let leaf : Node := { value := some value, children := [] }
          .ok (setNode (setNode st closestKey closest') key leaf)
        | some ec =>
          let branchKey :=
            key.take (closestKey.length + 1 + commonTokenRun ec.compressedKey remainingKey)
          let closest' := { closestNode with
            children := setChildEntry closestNode.children
              (branchKey.getD closestKey.length 0)
              ⟨branchKey.drop (closestKey.length + 1), 0, false⟩ }
          let existingChildKey := key.take (closestKey.length + 1) ++ ec.compressedKey
          if existingChildKey.length ≤ branchKey.length then .error .GetPathToFailure
          else if key.length = branchKey.length then
            let branch : Node :=
              { value := some value,
                children := setChildEntry []
                  (existingChildKey.getD branchKey.length 0)
                  ⟨existingChildKey.drop (branchKey.length + 1), ec.id, false⟩ }
            .ok (setNode (setNode st closestKey closest') branchKey branch)
          else
            let leaf : Node := { value := some value, children := [] }
            let branch : Node :=
              { value := none,
                children :=
                  setChildEntry
                    (setChildEntry []
                      (key.getD branchKey.length 0)
                      ⟨key.drop (branchKey.length + 1), 0, false⟩)
                    (existingChildKey.getD branchKey.length 0)
                    ⟨existingChildKey.drop (branchKey.length + 1), ec.id, false⟩ }
            .ok (setNode (setNode (setNode st closestKey closest') key leaf)
              branchKey branch)

/-- statelessView.removeFromTrie (stateless.go lines 723-761), flattened.
Unlike trieView.remove it *does* check that the walk landed exactly on the
key and that the landed node has a structural value, and returns with no
mutation otherwise. -/
def removeFromTrieS (st : Trie) (key : Key) : Except MerkleErr Trie :=
  match visitPathToKey st key with
  | .error e => .error e
  | .ok path =>
    match path.reverse with
    | [] => .ok st
    | (targetKey, target) :: rest =>
      if targetKey ≠ key || !target.hasValue then .ok st
      else
        let target' : Node := { target with value := none }
        let st1 := setNode st targetKey target'
        if target'.children.length = 0 then
          deleteEmptyNodesAux st1 targetKey target' rest
        else match rest with
          | [] => .ok st1
          | (pk, pn) :: _ => compressNodePathS st1 pk pn targetKey target'

/-- Materialisation loop of statelessView (applyChangedValuesToTrie,
stateless.go lines 393-410) over a given processing order. -/
def applyOpsS (st : Trie) : List (Key × Option Bytes) → Except MerkleErr Trie
  | [] => .ok st
  | (key, none) :: ops =>
    match removeFromTrieS st key with
    | .error e => .error e
    | .ok st' => applyOpsS st' ops
  | (key, some v) :: ops =>
    match insertIntoTrieS st key v with
    | .error e => .error e
    | .ok st' => applyOpsS st' ops

/-- trieView.getValue (node.go lines 735-758) with its two invalidation
observation points made explicit: `invalidAtEntry` is the value of
`t.isInvalid()` read on entry, `invalidAfterParent` the value re-read after
the parent call (an ancestor mutation may flip the flag in between; the
invariant comment at node.go lines 169-183 explains the re-check).  The
parent trie is dynamically dispatched (spec section 9) and passed as a
function that may fail. -/
def tvGetValue (invalidAtEntry invalidAfterParent : Bool)
    (values : List (Key × VChange))
    (parentGet : Key → Except MerkleErr (Option Bytes)) (key : Key) :
    Except MerkleErr (Option Bytes) :=
  if invalidAtEntry then .error .Invalid
  else
    match lookupV values key with
    | some change => .ok change.after
    | none =>
      match parentGet key with
      | .error e => .error e
      | .ok v => if invalidAfterParent then .error .Invalid else .ok v

/-- Concrete parent trie for the remove scenarios: root (no value) with child
token 10; node [10] with value [1] and child token 11; node [10,11] with value
[2] and leaf children [10,11,12] (value [3]) and [10,11,13] (value [4]).  All
compressed keys are empty and the cached IDs/flags are consistent. -/
def scParentTrie : Trie :=
  [([], ⟨none, [(10, ⟨[], 1, true⟩)]⟩),
   ([10], ⟨some [1], [(11, ⟨[], 2, true⟩)]⟩),
   ([10, 11], ⟨some [2], [(12, ⟨[], 3, true⟩), (13, ⟨[], 4, true⟩)]⟩),
   ([10, 11, 12], ⟨some [3], []⟩),
   ([10, 11, 13], ⟨some [4], []⟩)]

/-- The value view of `scParentTrie`'s chain. -/
def scParentValues : List (Key × Bytes) :=
  [([10], [1]), ([10, 11], [2]), ([10, 11, 12], [3]), ([10, 11, 13], [4])]

/-- The batch: delete keys [10,11] and [10,11,12]. -/
def scBatch : List (Key × Option Bytes) :=
  [([10, 11], none), ([10, 11, 12], none)]

/-- A materialisation processing order of the batch that Go's unspecified map
iteration order permits: [10,11,12] first, then [10,11]. -/
def scOrder : List (Key × Option Bytes) :=
  [([10, 11, 12], none), ([10, 11], none)]

/-- The view over the scenario parent with both deletions recorded. -/
def scView0 : Except MerkleErr ViewState :=
  buildView scParentValues scParentTrie scBatch

/-- The scenario view fully materialised in the order `scOrder`. -/
def scResult : Except MerkleErr ViewState :=
  match scView0 with
  | .ok st => applyOps st scOrder
  | .error e => .error e

/-- The scenario view after processing only the first operation of `scOrder`
(the removal of [10,11,12]). -/
def scMid : Except MerkleErr ViewState :=
  match scView0 with
  | .ok st => applyOp st ([10, 11, 12], none)
  | .error e => .error e

/-- The compression invariant of spec section 3 as a decidable check: every
non-root node has a value or does not have exactly one child. -/
def compressionInvariantB (t : Trie) : Bool :=
  t.all (fun p => p.1.isEmpty || !(p.2.children.length == 1 && !p.2.hasValue))

/-- A concrete run for the witness: an empty root, one insert at [5], then the
removal of [5]. -/
def c10WitnessStart : ViewState := ⟨false, [], [], [([], ⟨none, []⟩)]⟩

def c10WitnessOps : List (Key × Option Bytes) := [([5], some [7]), ([5], none)]

def c10WitnessFinal : ViewState :=
  match applyOps c10WitnessStart c10WitnessOps with
  | .ok st => st
  | .error _ => c10WitnessStart

/-- Strict lexicographic byte order: the Go `bytes.Compare(a, b) == -1` (a
proper prefix is smaller). -/
def ltBytes : Bytes → Bytes → Bool
  | [], [] => false
  | [], _ :: _ => true
  | _ :: _, [] => false
  | a :: as, b :: bs => if a < b then true else if b < a then false else ltBytes as bs

/-- Insertion of a key into a (non-strictly) sorted key list. -/
def insertSortedKey (k : Bytes) : List Bytes → List Bytes
  | [] => [k]
  | x :: xs => if ltBytes x k then x :: insertSortedKey k xs else k :: x :: xs

/-- Insertion sort of byte keys, ascending. -/
def sortKeys : List Bytes → List Bytes
  | [] => []
  | k :: ks => insertSortedKey k (sortKeys ks)

/-- The distinct keys visible through the view (the view's change map plus
the flattened ancestor chain), in ascending byte order.  Keys are byte keys
(tokens = bytes, see the modelling conventions). -/
def viewKeys (st : ViewState) : List Bytes :=
  sortKeys ((st.values.map Prod.fst ++ st.parentValues.map Prod.fst).dedup)

/-- Modelled from the spec: trieView.NewIteratorWithStart is not under src/;
spec section 4.4.4 says a range proof runs "an in-order iterator from start
(inclusive)", i.e. the view's key-value pairs in ascending byte order,
skipping keys below start (a nil start iterates everything).  The pairs are
the view's merged content: for each visible key, the value getValue
reports. -/
def iteratorFrom (st : ViewState) (start : Bytes) : List (Bytes × Bytes) :=
  ((viewKeys st).filterMap (fun k => (getValueM st k).map (fun v => (k, v)))).filter
    (fun kv => !(ltBytes kv.1 start))

/-- The collection loop of GetRangeProof (node.go lines 542-549): pull pairs
from the iterator while fewer than maxLength pairs are collected and the key
does not exceed the end bound. -/
def collectKV : List (Bytes × Bytes) → Nat → Option Bytes → List (Bytes × Bytes)
  | [], _, _ => []
  | _ :: _, 0, _ => []
  | kv :: rest, n + 1, e =>
    if (match e with | none => true | some eb => !(ltBytes eb kv.1)) then
      kv :: collectKV rest n e
    else []

/-- ProofNode (spec section 6): key, per-token child IDs, and the value
digest. -/
structure ProofNode where
  key : Key
  children : List (Nat × Nat)
  valueOrHash : Option Bytes
deriving DecidableEq, Repr

/-- asProofNode (node.go lines 93-103).  In getProof the value argument is
always the emitted node's own value, so it is taken from the node here. -/
def Node.asProofNode (hash : Bytes → Bytes) (key : Key) (n : Node) : ProofNode :=
  { key := key,
    children := n.children.map (fun p => (p.1, p.2.id)),
    valueOrHash := getValueDigest hash n.value }

/-- Proof (spec section 6): key, optional value, path of proof nodes. -/
structure TProof where
  key : Key
  value : Option Bytes
  path : List ProofNode
deriving DecidableEq, Repr

/-- RangeProof (spec section 6). -/
structure RangeProofT where
  keyValues : List (Bytes × Bytes)
  startProof : List ProofNode
  endProof : List ProofNode
deriving DecidableEq, Repr

/-- trieView.getProof (node.go lines 452-513) for a valid view: the value of
the key, the walk to the key emitted as proof nodes, and, when the walk falls
short of the key but the deepest node has a child at the next token, that
child's proof node appended so absence can be proven. -/
def getProofT (hash : Bytes → Bytes) (st : ViewState) (keyBytes : Bytes) :
    Except MerkleErr TProof :=
  let key : Key := keyBytes
  match visitPathToKey st.trie key with
  | .error e => .error e
  | .ok path =>
    let pnodes := path.map (fun p => p.2.asProofNode hash p.1)
    match path.getLast? with
    | none => .error .MissingNode
    | some (closestKey, closestNode) =>
      if closestKey = key then .ok ⟨key, getValueM st key, pnodes⟩
      else
        match lookupChild closestNode.children (key.getD closestKey.length 0) with
        | none => .ok ⟨key, getValueM st key, pnodes⟩
        | some child =>
          let childKey := closestKey ++ (key.getD closestKey.length 0) :: child.compressedKey
          match lookupNode st.trie childKey with
          | none => .error .NotFound
          | some childNode =>
            .ok ⟨key, getValueM st key, pnodes ++ [childNode.asProofNode hash childKey]⟩

/-- The common leading run of two proof paths with identical keys (the strip
loop of GetRangeProof, node.go lines 586-591). -/
def countCommon : List ProofNode → List ProofNode → Nat
  | a :: as, b :: bs => if a.key = b.key then countCommon as bs + 1 else 0
  | _, _ => 0

/-- Modelled from the spec: `rootKey` (node.go line 596) is declared outside
src/; spec section 4.4.4 step 4 calls it "a single root-proof", the proof
path for the root, whose key is the empty byte string. -/
def rootKeyBytes : Bytes := []

/-- The StartAfterEnd entry test of GetRangeProof (node.go line 527): both
bounds present and start strictly greater than end in byte order. -/
def startAfterEndB (start end_ : Option Bytes) : Bool :=
  match start, end_ with
  | some s, some e => ltBytes e s
  | _, _ => false

/-- calculateNodeIDs (node.go lines 312-359) restricted to its structural
effect: under the once-guard, apply every pending value change (remove for a
nothing `after`, insert otherwise) and mark the view calculated.  The ID
recalculation sweep (calculateNodeIDsHelper) only refreshes the opaque
cached hashes and child flags and the parallel fan-out is scheduling, so
neither is modelled; the processing order of Go's map iteration is the
model's list order. -/
def calculateNodeIDsT (st : ViewState) : Except MerkleErr ViewState :=
  if st.nodesAlreadyCalculated then .ok st
  else match applyOps st (pendingOps st) with
    | .error e => .error e
    | .ok stM => .ok { stM with nodesAlreadyCalculated := true }

/-- trieView.GetRangeProof (node.go lines 518-607) for a valid view.  Entry
validation first (StartAfterEnd, then InvalidMaxLength), before any node-ID
calculation; then the collection loop over the in-order iterator; an
end-proof for the greatest collected key, else for the end bound when one
exists; a start-proof with the common prefix of the end-proof stripped; and
the root-proof fallback when pairs and both proofs are all empty.  The
result pairs with the state left behind: unchanged on the entry
validations. -/
def GetRangeProofT (hash : Bytes → Bytes) (st : ViewState)
    (start end_ : Option Bytes) (maxLength : Int) :
    Except MerkleErr RangeProofT × ViewState :=
  if startAfterEndB start end_ then (.error .StartAfterEnd, st)
  else if maxLength ≤ 0 then (.error .InvalidMaxLength, st)
  else match calculateNodeIDsT st with
    | .error e => (.error e, st)
    | .ok stM =>
      let kvs := collectKV (iteratorFrom stM (start.getD [])) maxLength.toNat end_
      let endProofE : Except MerkleErr (List ProofNode) :=
        match kvs.getLast? with
        | some kv =>
          match getProofT hash stM kv.1 with
          | .error e => .error e
          | .ok pf => .ok pf.path
        | none =>
          match end_ with
          | some eb =>
            match getProofT hash stM eb with
            | .error e => .error e
            | .ok pf => .ok pf.path
          | none => .ok []
      match endProofE with
      | .error e => (.error e, stM)
      | .ok endProof =>
        match start with
        | some s =>
          match getProofT hash stM s with
          | .error e => (.error e, stM)
          | .ok sp =>
            let startProof := sp.path.drop (countCommon sp.path endProof)
            if startProof.isEmpty && endProof.isEmpty && kvs.isEmpty then
              match getProofT hash stM rootKeyBytes with
              | .error e => (.error e, stM)
              | .ok rp => (.ok ⟨kvs, startProof, rp.path⟩, stM)
            else (.ok ⟨kvs, startProof, endProof⟩, stM)
        | none =>
          if endProof.isEmpty && kvs.isEmpty then
            match getProofT hash stM rootKeyBytes with
            | .error e => (.error e, stM)
            | .ok rp => (.ok ⟨kvs, [], rp.path⟩, stM)
          else (.ok ⟨kvs, [], endProof⟩, stM)

/-- Concrete inputs for the range-proof witness: a view over a bare root with
no pending changes. -/
def c4wSt : ViewState := ⟨false, [], [], [([], ⟨none, []⟩)]⟩

def c4wStM : ViewState := ⟨true, [], [], [([], ⟨none, []⟩)]⟩

def c4wRp : RangeProofT := ⟨[], [], [⟨[], [], none⟩]⟩

theorem isTokenPrefixOf_of_length_le_commonTokenRun :
    ∀ (first s : Key), first.length ≤ commonTokenRun first s →
      isTokenPrefixOf first s = true := by
  intro first
  induction first with
  | nil => intro s _; rfl
  | cons a as ih =>
    intro s h
    cases s with
    | nil => simp [commonTokenRun] at h
    | cons b bs =>
      by_cases hab : a = b
      · subst hab
        simp only [commonTokenRun, if_pos rfl, List.length_cons, eq_self_iff_true] at h
        simp only [isTokenPrefixOf, decide_true_eq_true, Bool.true_and]
        have : as.length ≤ commonTokenRun as bs := by
          simp only [eq_self_iff_true, if_true] at h; omega
        exact ih bs this
      · simp [commonTokenRun, hab] at h

/-- C1: the compression invariant fails on this code.  Materialising the
batch that removes [10,11] and [10,11,12] over `scParentTrie` in the
processing order `scOrder` (legal for Go's unspecified map iteration order)
leaves the non-root node [10] with no value and exactly one child: the
removal of [10,11,12] path-compresses the node [10,11] away (its pending
removal makes `getValue` report no value), after which the removal of
[10,11] walks past the vanished node, stops at [10], and clears that node's
value without checking that the walk landed on the requested key (the check
required by spec section 4.4.3, remove step 2, and present in
statelessView.removeFromTrie, is absent from trieView.remove). -/
theorem compression_invariant_violated_after_removes :
    (match scResult with
      | .ok st => some (compressionInvariantB st.trie, lookupNode st.trie [10])
      | .error _ => none) =
      some (false, some ⟨none, [(11, ⟨[13], 4, true⟩)]⟩) := by rfl

/-- C2: the read path of getValue.  An invalidated view fails with Invalid;
otherwise a key present in changes.values returns that entry's `after`
without consulting the parent (the conclusion holds for every parent
function); otherwise the parent's result is returned, except that when the
view was invalidated during a successful parent call the read fails with
Invalid instead. -/
theorem tvGetValue_read_path (invalidAfterParent : Bool)
    (values : List (Key × VChange))
    (parentGet : Key → Except MerkleErr (Option Bytes)) (key : Key) :
    (tvGetValue true invalidAfterParent values parentGet key = .error .Invalid) ∧
    (∀ c, lookupV values key = some c →
      tvGetValue false invalidAfterParent values parentGet key = .ok c.after) ∧
    (lookupV values key = none →
      tvGetValue false false values parentGet key = parentGet key) ∧
    (lookupV values key = none → ∀ v, parentGet key = .ok v →
      tvGetValue false true values parentGet key = .error .Invalid) := by
  refine ⟨rfl, ?_, ?_, ?_⟩
  · intro c hc
    simp [tvGetValue, hc]
  · intro hn
    cases hp : parentGet key <;> simp [tvGetValue, hn, hp]
  · intro hn v hv
    simp [tvGetValue, hn, hv]

theorem tvGetValue_read_path_witness :
    tvGetValue false true [([1], ⟨none, some [2]⟩)]
      (fun _ => .ok (some [9])) [1] = .ok (some [2]) ∧
    tvGetValue false true []
      (fun _ => .ok (some [9])) [2] = .error .Invalid :=
  ⟨(tvGetValue_read_path true [([1], ⟨none, some [2]⟩)]
      (fun _ => .ok (some [9])) [1]).2.1 ⟨none, some [2]⟩ rfl,
   (tvGetValue_read_path true [] (fun _ => .ok (some [9])) [2]).2.2.2 rfl
      (some [9]) rfl⟩

/-- C5: the value digest used in Merkle-ID computation and ProofNode
valueOrHash: an absent value stays absent, a present value shorter than 32
bytes is embedded raw, and a present value of 32 bytes or more (including
exactly 32) is replaced by its digest.  The SHA-256 primitive is the opaque
`hash` collaborator. -/
theorem getValueDigest_spec (hash : Bytes → Bytes) :
    getValueDigest hash none = none ∧
    (∀ v : Bytes, v.length < HashLength → getValueDigest hash (some v) = some v) ∧
    (∀ v : Bytes, HashLength ≤ v.length → getValueDigest hash (some v) = some (hash v)) := by
  refine ⟨rfl, ?_, ?_⟩
  · intro v h
    simp [getValueDigest, h]
  · intro v h
    simp [getValueDigest, Nat.not_lt.mpr h]

theorem getValueDigest_spec_witness :
    getValueDigest (fun _ => List.replicate 32 0) (some [1]) = some [1] ∧
    getValueDigest (fun _ => List.replicate 32 0) (some (List.replicate 32 7)) =
      some (List.replicate 32 0) :=
  ⟨(getValueDigest_spec (fun _ => List.replicate 32 0)).2.1 [1] (by decide),
   (getValueDigest_spec (fun _ => List.replicate 32 0)).2.2 (List.replicate 32 7)
      (by decide)⟩

/-- C6: once the view's node IDs have been calculated
(nodesAlreadyCalculated), insert, remove and recordValueChange are all
rejected with NodesAlreadyCalculated; each guard fires on entry, before any
mutation of the change set. -/
theorem mutation_after_calculation_rejected (st : ViewState) (key : Key)
    (value : Bytes) (h : st.nodesAlreadyCalculated = true) :
    insertT st key value = .error .NodesAlreadyCalculated ∧
    removeT st key = .error .NodesAlreadyCalculated ∧
    recordValueChange st key (some value) = .error .NodesAlreadyCalculated := by
  refine ⟨?_, ?_, ?_⟩ <;> simp [insertT, removeT, recordValueChange, h]

theorem mutation_after_calculation_rejected_witness :
    insertT ⟨true, [], [], []⟩ [1] [2] = .error .NodesAlreadyCalculated ∧
    removeT ⟨true, [], [], []⟩ [1] = .error .NodesAlreadyCalculated ∧
    recordValueChange ⟨true, [], [], []⟩ [1] (some [2]) =
      .error .NodesAlreadyCalculated :=
  mutation_after_calculation_rejected ⟨true, [], [], []⟩ [1] [2] rfl

/-- C7: the two overlay implementations are not equivalent.  On the same
initial trie state `scParentTrie` and the same operation sequence `scOrder`,
the trieView pipeline wipes the stored value of node [10] (its remove walks
past the already-compressed node [10,11] and clears the value of the node it
lands on), while the statelessView pipeline, whose removeFromTrie checks
that the walk landed exactly on the key, keeps it; the resulting trie shapes
differ. -/
theorem overlay_implementations_diverge :
    (match scResult with
      | .ok st => some ((lookupNode st.trie [10]).map Node.value)
      | .error _ => none) = some (some none) ∧
    (match applyOpsS scParentTrie scOrder with
      | .ok t => some ((lookupNode t [10]).map Node.value)
      | .error _ => none) = some (some (some [1])) ∧
    (some (none : Option Bytes) : Option (Option Bytes)) ≠ some (some [1]) := by
  refine ⟨by rfl, by rfl, by decide⟩

/-- C8: removing a key that is absent from the view can change the trie (and
hence the Merkle root).  In the reachable state `scMid` (the scenario view
after materialising the removal of [10,11,12]), the key [10,11] has no value
in the view, yet remove([10,11]) mutates the trie: it clears the stored
value of node [10].  (For a key with no recorded change and no parent value
the remove is indeed a no-op, but the claim quantifies over every view and
every absent key.) -/
theorem remove_absent_key_mutates_trie :
    (match scMid with
      | .ok st1 =>
        some (getValueM st1 [10, 11],
          match removeT st1 [10, 11] with
          | .ok st2 => some (decide (st2.trie = st1.trie),
              (lookupNode st2.trie [10]).map Node.value,
              (lookupNode st1.trie [10]).map Node.value)
          | .error _ => none)
      | .error _ => none) =
      some (none, some (false, some none, some (some [1]))) := by rfl

theorem getLast?_cons_of_ne_nil (a : Key × Node) (l : List (Key × Node))
    (h : l ≠ []) : (a :: l).getLast? = l.getLast? := by
  cases l with
  | nil => exact absurd rfl h
  | cons b bs => simp [List.getLast?]

theorem visitAux_ok_ne_nil (t : Trie) (key : Key) :
    ∀ (fuel : Nat) (ck : Key) (cn : Node) (path : List (Key × Node)),
      visitAux t key ck cn fuel = .ok path → path ≠ [] := by
  intro fuel
  induction fuel with
  | zero =>
    intro ck cn path h
    simp only [visitAux] at h
    cases h
    simp
  | succ fuel ih =>
    intro ck cn path h
    simp only [visitAux] at h
    split at h
    · split at h
      · cases h; simp
      · split at h
        · split at h
          · cases h
          · split at h
            · cases h
            · cases h; simp
        · cases h; simp
    · cases h; simp

theorem visitAux_error_eq (t : Trie) (key : Key) :
    ∀ (fuel : Nat) (ck : Key) (cn : Node) (e : MerkleErr),
      visitAux t key ck cn fuel = .error e → e = .MissingNode := by
  intro fuel
  induction fuel with
  | zero => intro ck cn e h; simp only [visitAux] at h; cases h
  | succ fuel ih =>
    intro ck cn e h
    simp only [visitAux] at h
    split at h
    · split at h
      · cases h
      · split at h
        · split at h
          · cases h; rfl
          · split at h
            · exact ih _ _ _ (by cases h; assumption)
            · cases h
        · cases h
    · cases h

theorem visitAux_getLast_stop (t : Trie) (key : Key) :
    ∀ (fuel : Nat) (ck : Key) (cn : Node) (path : List (Key × Node)),
      key.length - ck.length ≤ fuel →
      ck = key.take ck.length →
      visitAux t key ck cn fuel = .ok path →
      ∃ lk ln, path.getLast? = some (lk, ln) ∧
        (lk = key ∨ (lk.length < key.length ∧
          ∀ ec, lookupChild ln.children (key.getD lk.length 0) = some ec →
            isTokenPrefixOf ec.compressedKey (key.drop (lk.length + 1)) = false)) := by
  intro fuel
  induction fuel with
  | zero =>
    intro ck cn path hfuel hpref h
    simp only [visitAux] at h
    cases h
    refine ⟨ck, cn, by simp [List.getLast?], Or.inl ?_⟩
    rw [hpref]
    exact List.take_of_length_le (by omega)
  | succ fuel ih =>
    intro ck cn path hfuel hpref h
    simp only [visitAux] at h
    split at h
    case isTrue hlt =>
      split at h
      case h_1 hc =>
        cases h
        refine ⟨ck, cn, by simp [List.getLast?], Or.inr ⟨hlt, ?_⟩⟩
        intro ec hec
        rw [hec] at hc
        cases hc
      case h_2 entry hc =>
        split at h
        case isTrue hpre =>
          split at h
          case h_1 => cases h
          case h_2 nextNode hnode =>
            split at h
            case h_1 => cases h
            case h_2 path' hrec =>
              cases h
              have hne : path' ≠ [] := visitAux_ok_ne_nil t key fuel _ _ _ hrec
              have hlen : (key.take (ck.length + 1 + entry.compressedKey.length)).length
                  = min (ck.length + 1 + entry.compressedKey.length) key.length :=
                List.length_take _ _
              have hm : key.length - (key.take (ck.length + 1 + entry.compressedKey.length)).length ≤ fuel := by
                omega
              have hp : key.take (ck.length + 1 + entry.compressedKey.length)
                  = key.take (key.take (ck.length + 1 + entry.compressedKey.length)).length := by
                rw [hlen]
                rw [List.take_eq_take]
                omega
              obtain ⟨lk, ln, hlast, hstop⟩ := ih _ _ _ hm hp hrec
              exact ⟨lk, ln, by rw [getLast?_cons_of_ne_nil _ _ hne, hlast], hstop⟩
        case isFalse hpre =>
          cases h
          refine ⟨ck, cn, by simp [List.getLast?], Or.inr ⟨hlt, ?_⟩⟩
          intro ec hec
          rw [hec] at hc
          cases hc
          exact eq_false_of_ne_true hpre
    case isFalse hlt =>
      cases h
      refine ⟨ck, cn, by simp [List.getLast?], Or.inl ?_⟩
      rw [hpref]
      exact List.take_of_length_le (by omega)

theorem visitPathToKey_ok_getLast (t : Trie) (key : Key) (path : List (Key × Node))
    (h : visitPathToKey t key = .ok path) :
    ∃ lk ln, path.getLast? = some (lk, ln) ∧
      (lk = key ∨ (lk.length < key.length ∧
        ∀ ec, lookupChild ln.children (key.getD lk.length 0) = some ec →
          isTokenPrefixOf ec.compressedKey (key.drop (lk.length + 1)) = false)) := by
  unfold visitPathToKey at h
  split at h
  · cases h
  · exact visitAux_getLast_stop t key key.length [] _ path (by omega) rfl h

theorem visitPathToKey_error_eq (t : Trie) (key : Key) (e : MerkleErr)
    (h : visitPathToKey t key = .error e) : e = .MissingNode := by
  unfold visitPathToKey at h
  split at h
  · cases h; rfl
  · exact visitAux_error_eq t key key.length [] _ e h

theorem recordValueChange_ok_of_not_calculated (st : ViewState) (key : Key)
    (v : Option Bytes) (h : st.nodesAlreadyCalculated = false) :
    ∃ st', recordValueChange st key v = .ok st' ∧ st'.trie = st.trie := by
  unfold recordValueChange
  rw [h]
  simp only [Bool.false_eq_true, if_false]
  cases lookupV st.values key <;> exact ⟨_, rfl, rfl⟩

/-- C9: insert never returns the GetPathToFailure error, on any view state:
the walk of visitPathToKey stops at a node only when the node's child at the
next token is absent or its compressed key is not a leading segment of the
remaining key, and the error branch of insert (node.go lines 977-982) fires
exactly when the compressed key's length is at most the common prefix
length, which would make it such a leading segment — a contradiction, so the
branch is unreachable. -/
theorem insert_never_returns_get_path_to_failure (st : ViewState) (key : Key)
    (value : Bytes) :
    insertT st key value ≠ .error .GetPathToFailure := by
  unfold insertT
  by_cases hf : st.nodesAlreadyCalculated
  · rw [hf]
    simp
  · rw [Bool.not_eq_true] at hf
    obtain ⟨st1, hrv, -⟩ := recordValueChange_ok_of_not_calculated st key (some value) hf
    rw [hf, hrv]
    simp only [Bool.false_eq_true, if_false]
    cases hwalk : visitPathToKey st1.trie key with
    | error e =>
      have := visitPathToKey_error_eq st1.trie key e hwalk
      subst this
      simp
    | ok path =>
      obtain ⟨lk, ln, hlast, hstop⟩ := visitPathToKey_ok_getLast st1.trie key path hwalk
      dsimp only
      rw [hlast]
      dsimp only
      by_cases hexact : lk = key
      · rw [if_pos hexact]
        simp
      · rw [if_neg hexact]
        cases hstop with
        | inl h => exact absurd h hexact
        | inr h =>
          obtain ⟨hlt, hnopref⟩ := h
          cases hc : lookupChild ln.children (key.getD lk.length 0) with
          | none => simp
          | some ec =>
            have hpre := hnopref ec hc
            have hgt : ¬ ec.compressedKey.length ≤
                getLengthOfCommonPrefix ec.compressedKey key (lk.length + 1) := by
              intro hle
              have := isTokenPrefixOf_of_length_le_commonTokenRun
                ec.compressedKey (key.drop (lk.length + 1)) hle
              rw [this] at hpre
              cases hpre
            dsimp only
            rw [if_neg hgt]
            split <;> simp

theorem lookupNode_setNode_self : ∀ (t : Trie) (k : Key) (n : Node),
    lookupNode (setNode t k n) k = some n := by
  intro t
  induction t with
  | nil => intro k n; simp [setNode, lookupNode]
  | cons p rest ih =>
    intro k n
    obtain ⟨k0, n0⟩ := p
    by_cases h0 : k0 = k
    · simp [setNode, h0, lookupNode]
    · simp [setNode, h0, lookupNode, ih]

theorem lookupNode_setNode_ne : ∀ (t : Trie) (k key : Key) (n : Node),
    k ≠ key → lookupNode (setNode t k n) key = lookupNode t key := by
  intro t
  induction t with
  | nil => intro k key n hne; simp [setNode, lookupNode, hne]
  | cons p rest ih =>
    intro k key n hne
    obtain ⟨k0, n0⟩ := p
    by_cases h0 : k0 = k
    · have hk0 : k0 ≠ key := by rw [h0]; exact hne
      simp [setNode, h0, lookupNode, hne, hk0]
    · by_cases h1 : k0 = key
      · have h2 : ¬ key = k := fun hh => hne hh.symm
        simp [setNode, h0, lookupNode, h1, h2]
      · simp [setNode, h0, lookupNode, h1, ih _ _ _ hne]

theorem lookupNode_deleteNode_ne : ∀ (t : Trie) (k key : Key),
    k ≠ key → lookupNode (deleteNode t k) key = lookupNode t key := by
  intro t
  induction t with
  | nil => intro k key _; rfl
  | cons p rest ih =>
    intro k key hne
    obtain ⟨k0, n0⟩ := p
    by_cases h0 : k0 = k
    · subst h0
      simp only [deleteNode, if_pos rfl, lookupNode, if_neg hne]
      exact ih _ _ hne
    · by_cases h1 : k0 = key
      · have h2 : ¬ key = k := fun hh => hne hh.symm
        simp [deleteNode, h0, lookupNode, h1, h2]
      · simp [deleteNode, h0, lookupNode, h1, ih _ _ hne]

theorem rootSome_setNode (t : Trie) (k : Key) (n : Node)
    (h : (lookupNode t []).isSome = true) :
    (lookupNode (setNode t k n) []).isSome = true := by
  by_cases hk : k = []
  · subst hk
    rw [lookupNode_setNode_self]
    rfl
  · rw [lookupNode_setNode_ne t k [] n hk]
    exact h

theorem recordValueChange_fields (st : ViewState) (key : Key) (v : Option Bytes)
    (st' : ViewState) (h : recordValueChange st key v = .ok st') :
    st'.trie = st.trie ∧ st'.nodesAlreadyCalculated = st.nodesAlreadyCalculated := by
  unfold recordValueChange at h
  split at h
  · cases h
  · split at h <;> (cases h; exact ⟨rfl, rfl⟩)

theorem recordKeyChange_rootSome (st : ViewState) (key : Key) (after : Option Node)
    (st' : ViewState) (h : recordKeyChange st key after = .ok st')
    (hr : (lookupNode st.trie []).isSome = true)
    (hkey : after.isSome = true ∨ key ≠ []) :
    (lookupNode st'.trie []).isSome = true := by
  unfold recordKeyChange at h
  split at h
  · cases h
  · split at h
    · cases h
      exact rootSome_setNode st.trie _ _ hr
    · cases h
      cases hkey with
      | inl hsome => cases hsome
      | inr hne =>
        show (lookupNode (deleteNode st.trie key) []).isSome = true
        rw [lookupNode_deleteNode_ne st.trie key [] hne]
        exact hr

theorem recordNodeDeleted_rootSome (st : ViewState) (key : Key) (n : Node)
    (st' : ViewState) (h : recordNodeDeleted st key n = .ok st')
    (hr : (lookupNode st.trie []).isSome = true) :
    (lookupNode st'.trie []).isSome = true := by
  unfold recordNodeDeleted at h
  split at h
  · exact recordKeyChange_rootSome st key (some n) st' h hr (Or.inl rfl)
  · exact recordKeyChange_rootSome st key none st' h hr (Or.inr (by assumption))

theorem compressNodePathT_rootSome (st : ViewState) (parent? : Option (Key × Node))
    (node : Node) (nodeKey : Key) (st' : ViewState)
    (h : compressNodePathT st parent? node nodeKey = .ok st')
    (hr : (lookupNode st.trie []).isSome = true) :
    (lookupNode st'.trie []).isSome = true := by
  unfold compressNodePathT at h
  split at h
  · cases h
  · split at h
    · cases h; exact hr
    · split at h
      · cases h; exact hr
      · split at h
        · dsimp only at h
          split at h
          · cases h
          · rename_i st1 hdel
            unfold recordNodeChange recordKeyChange at h
            split at h
            · cases h
            · cases h
              exact rootSome_setNode st1.trie _ _
                (recordNodeDeleted_rootSome st nodeKey node st1 hdel hr)
        · cases h; exact hr

theorem insertT_rootSome (st : ViewState) (key : Key) (value : Bytes)
    (st' : ViewState) (h : insertT st key value = .ok st')
    (hr : (lookupNode st.trie []).isSome = true) :
    (lookupNode st'.trie []).isSome = true := by
  unfold insertT at h
  split at h
  · cases h
  · split at h
    · cases h
    · rename_i st1 hrv
      have hr1 : (lookupNode st1.trie []).isSome = true := by
        rw [(recordValueChange_fields st key (some value) st1 hrv).1]
        exact hr
      split at h
      · cases h
      · split at h
        · cases h
        · split at h
          · cases h
            exact rootSome_setNode st1.trie _ _ hr1
          · split at h
            · cases h
              exact rootSome_setNode _ _ _ (rootSome_setNode st1.trie _ _ hr1)
            · dsimp only at h
              split at h
              · cases h
              · split at h
                · cases h
                  exact rootSome_setNode _ _ _ (rootSome_setNode st1.trie _ _ hr1)
                · cases h
                  exact rootSome_setNode _ _ _
                    (rootSome_setNode _ _ _ (rootSome_setNode st1.trie _ _ hr1))

theorem removeT_rootSome (st : ViewState) (key : Key)
    (st' : ViewState) (h : removeT st key = .ok st')
    (hr : (lookupNode st.trie []).isSome = true) :
    (lookupNode st'.trie []).isSome = true := by
  unfold removeT at h
  split at h
  · cases h
  · split at h
    · cases h
    · rename_i st1 hrv
      have hr1 : (lookupNode st1.trie []).isSome = true := by
        rw [(recordValueChange_fields st key none st1 hrv).1]
        exact hr
      split at h
      · cases h; exact hr1
      · split at h
        · cases h; exact hr1
        · split at h
          · cases h
          · split at h
            · cases h; exact hr1
            · dsimp only at h
              split at h
              · exact compressNodePathT_rootSome _ _ _ _ _ h
                  (rootSome_setNode st1.trie _ _ hr1)
              · split at h
                · cases h
                · rename_i st3 hdel
                  have hr3 : (lookupNode st3.trie []).isSome = true :=
                    recordNodeDeleted_rootSome _ _ _ _ hdel
                      (rootSome_setNode st1.trie _ _ hr1)
                  split at h
                  · cases h; exact hr3
                  · exact compressNodePathT_rootSome _ _ _ _ _ h
                      (rootSome_setNode st3.trie _ _ hr3)

theorem applyOps_rootSome : ∀ (ops : List (Key × Option Bytes)) (st st' : ViewState),
    applyOps st ops = .ok st' →
    (lookupNode st.trie []).isSome = true →
    (lookupNode st'.trie []).isSome = true := by
  intro ops
  induction ops with
  | nil =>
    intro st st' h hr
    unfold applyOps at h
    cases h
    exact hr
  | cons op rest ih =>
    intro st st' h hr
    unfold applyOps at h
    split at h
    · cases h
    · rename_i st1 hop
      refine ih st1 st' h ?_
      unfold applyOp at hop
      split at hop
      · exact removeT_rootSome _ _ _ hop hr
      · exact insertT_rootSome _ _ _ _ hop hr

/-- C10: the root node is never deleted.  recordNodeDeleted on the empty
(root) key records the node as changed rather than deleted (so the change
set never maps the root key to a nil node), and consequently every sequence
of insert and remove operations that starts from a state with a root node
ends with a root node still present, even after all keys have been
removed. -/
theorem root_node_never_deleted :
    (∀ (st : ViewState) (n : Node),
      recordNodeDeleted st [] n = recordKeyChange st [] (some n)) ∧
    (∀ (ops : List (Key × Option Bytes)) (st st' : ViewState),
      applyOps st ops = .ok st' →
      (lookupNode st.trie []).isSome = true →
      (lookupNode st'.trie []).isSome = true) := by
  constructor
  · intro st n
    unfold recordNodeDeleted
    rw [if_pos rfl]
  · exact applyOps_rootSome

theorem root_node_never_deleted_witness :
    (lookupNode c10WitnessFinal.trie []).isSome = true :=
  root_node_never_deleted.2 c10WitnessOps c10WitnessStart c10WitnessFinal rfl rfl

theorem ltBytes_irrefl : ∀ (a : Bytes), ltBytes a a = false := by
  intro a
  induction a with
  | nil => rfl
  | cons x xs ih =>
    simp only [ltBytes, lt_irrefl, if_false]
    exact ih

theorem ltBytes_asymm : ∀ (a b : Bytes), ltBytes a b = true → ltBytes b a = false := by
  intro a
  induction a with
  | nil =>
    intro b h
    cases b with
    | nil => cases h
    | cons y ys => rfl
  | cons x xs ih =>
    intro b h
    cases b with
    | nil => cases h
    | cons y ys =>
      simp only [ltBytes] at h ⊢
      rcases Nat.lt_trichotomy x y with hxy | hxy | hxy
      · rw [if_neg (by omega : ¬ y < x), if_pos hxy]
      · subst hxy
        rw [if_neg (lt_irrefl x), if_neg (lt_irrefl x)] at h ⊢
        exact ih ys h
      · rw [if_neg (by omega : ¬ x < y), if_pos hxy] at h
        cases h

theorem ltBytes_connex : ∀ (a b : Bytes),
    ltBytes a b = false → ltBytes b a = false → a = b := by
  intro a
  induction a with
  | nil =>
    intro b h _
    cases b with
    | nil => rfl
    | cons y ys => cases h
  | cons x xs ih =>
    intro b h h'
    cases b with
    | nil => cases h'
    | cons y ys =>
      simp only [ltBytes] at h h'
      rcases Nat.lt_trichotomy x y with hxy | hxy | hxy
      · rw [if_pos hxy] at h
        cases h
      · subst hxy
        rw [if_neg (lt_irrefl x), if_neg (lt_irrefl x)] at h h'
        rw [ih ys h h']
      · rw [if_pos hxy] at h'
        cases h'

theorem ltBytes_trans : ∀ (a b c : Bytes),
    ltBytes a b = true → ltBytes b c = true → ltBytes a c = true := by
  intro a
  induction a with
  | nil =>
    intro b c hab hbc
    cases b with
    | nil => cases hab
    | cons y ys =>
      cases c with
      | nil => cases hbc
      | cons z zs => rfl
  | cons x xs ih =>
    intro b c hab hbc
    cases b with
    | nil => cases hab
    | cons y ys =>
      cases c with
      | nil => cases hbc
      | cons z zs =>
        simp only [ltBytes] at hab hbc ⊢
        rcases Nat.lt_trichotomy x y with hxy | hxy | hxy
        · rcases Nat.lt_trichotomy y z with hyz | hyz | hyz
          · rw [if_pos (by omega : x < z)]
          · subst hyz
            rw [if_pos hxy]
          · rw [if_neg (by omega : ¬ y < z), if_pos hyz] at hbc
            cases hbc
        · subst hxy
          rw [if_neg (lt_irrefl x), if_neg (lt_irrefl x)] at hab
          rcases Nat.lt_trichotomy x z with hxz | hxz | hxz
          · rw [if_pos hxz]
          · subst hxz
            rw [if_neg (lt_irrefl x), if_neg (lt_irrefl x)] at hbc ⊢
            exact ih ys zs hab hbc
          · rw [if_neg (by omega : ¬ x < z), if_pos hxz] at hbc
            cases hbc
        · rw [if_neg (by omega : ¬ x < y), if_pos hxy] at hab
          cases hab

theorem insertSortedKey_perm (k : Bytes) :
    ∀ (l : List Bytes), List.Perm (insertSortedKey k l) (k :: l) := by
  intro l
  induction l with
  | nil => rfl
  | cons x xs ih =>
    by_cases h : ltBytes x k = true
    · simp only [insertSortedKey, h, if_true]
      exact (ih.cons x).trans (List.Perm.swap k x xs)
    · rw [Bool.not_eq_true] at h
      simp [insertSortedKey, h]

theorem sortKeys_perm : ∀ (l : List Bytes), List.Perm (sortKeys l) l := by
  intro l
  induction l with
  | nil => rfl
  | cons k ks ih => exact (insertSortedKey_perm k (sortKeys ks)).trans (ih.cons k)

theorem insertSortedKey_pairwise (k : Bytes) :
    ∀ (l : List Bytes), l.Pairwise (fun a b => ltBytes b a = false) →
      (insertSortedKey k l).Pairwise (fun a b => ltBytes b a = false) := by
  intro l
  induction l with
  | nil => intro _; simp [insertSortedKey]
  | cons x xs ih =>
    intro hp
    rw [List.pairwise_cons] at hp
    obtain ⟨hx, hxs⟩ := hp
    by_cases h : ltBytes x k = true
    · simp only [insertSortedKey, h, if_true]
      rw [List.pairwise_cons]
      refine ⟨?_, ih hxs⟩
      intro a ha
      rcases List.mem_cons.mp ((insertSortedKey_perm k xs).mem_iff.mp ha) with rfl | hmem
      · exact ltBytes_asymm x a h
      · exact hx a hmem
    · rw [Bool.not_eq_true] at h
      simp only [insertSortedKey, h, Bool.false_eq_true, if_false]
      rw [List.pairwise_cons]
      refine ⟨?_, List.pairwise_cons.mpr ⟨hx, hxs⟩⟩
      intro b hb
      rcases List.mem_cons.mp hb with rfl | hmem
      · exact h
      · cases hlt : ltBytes b k with
        | false => rfl
        | true =>
          have hxb := hx b hmem
          cases hkx : ltBytes k x with
          | true =>
            have := ltBytes_trans b k x hlt hkx
            rw [this] at hxb
            cases hxb
          | false =>
            have := ltBytes_connex k x hkx h
            subst this
            rw [hlt] at hxb
            cases hxb

theorem sortKeys_pairwise : ∀ (l : List Bytes),
    (sortKeys l).Pairwise (fun a b => ltBytes b a = false) := by
  intro l
  induction l with
  | nil => simp [sortKeys]
  | cons k ks ih => exact insertSortedKey_pairwise k (sortKeys ks) ih

theorem collectKV_length : ∀ (l : List (Bytes × Bytes)) (n : Nat) (e : Option Bytes),
    (collectKV l n e).length ≤ n := by
  intro l
  induction l with
  | nil => intro n e; simp [collectKV]
  | cons kv rest ih =>
    intro n e
    cases n with
    | zero => simp [collectKV]
    | succ n =>
      simp only [collectKV]
      split
      · simpa using ih n e
      · simp

theorem collectKV_sublist : ∀ (l : List (Bytes × Bytes)) (n : Nat) (e : Option Bytes),
    List.Sublist (collectKV l n e) l := by
  intro l
  induction l with
  | nil => intro n e; simp [collectKV]
  | cons kv rest ih =>
    intro n e
    cases n with
    | zero => simp [collectKV]
    | succ n =>
      simp only [collectKV]
      split
      · exact List.Sublist.cons₂ kv (ih n e)
      · exact List.nil_sublist _

theorem collectKV_le_end : ∀ (l : List (Bytes × Bytes)) (n : Nat) (eb : Bytes)
    (kv : Bytes × Bytes), kv ∈ collectKV l n (some eb) → ltBytes eb kv.1 = false := by
  intro l
  induction l with
  | nil => intro n eb kv h; simp [collectKV] at h
  | cons kv0 rest ih =>
    intro n eb kv h
    cases n with
    | zero => simp [collectKV] at h
    | succ n =>
      simp only [collectKV] at h
      split at h
      · rename_i hcond
        rcases List.mem_cons.mp h with rfl | hmem
        · simpa using hcond
        · exact ih n eb kv hmem
      · simp at h

theorem pairwise_filterMap_of_imp {α β : Type} (f : α → Option β)
    (R : α → α → Prop) (S : β → β → Prop)
    (hf : ∀ a b a' b', f a = some a' → f b = some b' → R a b → S a' b') :
    ∀ (l : List α), l.Pairwise R → (l.filterMap f).Pairwise S := by
  intro l
  induction l with
  | nil => intro _; simp
  | cons x xs ih =>
    intro hp
    rw [List.pairwise_cons] at hp
    obtain ⟨hx, hxs⟩ := hp
    cases hfx : f x with
    | none => rw [List.filterMap_cons_none hfx]; exact ih hxs
    | some b =>
      rw [List.filterMap_cons_some hfx]
      rw [List.pairwise_cons]
      refine ⟨?_, ih hxs⟩
      intro b' hb'
      obtain ⟨a', ha'mem, ha'⟩ := List.mem_filterMap.mp hb'
      exact hf x a' b b' hfx ha' (hx a' ha'mem)

theorem viewKeys_pairwise_lt (st : ViewState) :
    (viewKeys st).Pairwise (fun a b => ltBytes a b = true) := by
  have hle := sortKeys_pairwise ((st.values.map Prod.fst ++ st.parentValues.map Prod.fst).dedup)
  have hnd : (viewKeys st).Nodup :=
    ((sortKeys_perm _).nodup_iff).mpr (List.nodup_dedup _)
  have hand := hle.and hnd
  refine hand.imp ?_
  intro a b hab
  obtain ⟨hba, hne⟩ := hab
  cases h : ltBytes a b with
  | true => rfl
  | false => exact absurd (ltBytes_connex a b h hba) hne

theorem iteratorFrom_pairwise (st : ViewState) (start : Bytes) :
    (iteratorFrom st start).Pairwise (fun p q => ltBytes p.1 q.1 = true) := by
  have h1 : ((viewKeys st).filterMap
      (fun k => (getValueM st k).map (fun v => (k, v)))).Pairwise
      (fun p q => ltBytes p.1 q.1 = true) := by
    refine pairwise_filterMap_of_imp _ _ _ ?_ _ (viewKeys_pairwise_lt st)
    intro a b a' b' ha hb hR
    cases hga : getValueM st a with
    | none => rw [hga] at ha; cases ha
    | some va =>
      cases hgb : getValueM st b with
      | none => rw [hgb] at hb; cases hb
      | some vb =>
        rw [hga] at ha
        rw [hgb] at hb
        cases ha
        cases hb
        exact hR
  exact h1.sublist (List.filter_sublist _)

theorem iteratorFrom_ge_start (st : ViewState) (start : Bytes) :
    ∀ kv ∈ iteratorFrom st start, ltBytes kv.1 start = false := by
  intro kv h
  have := (List.mem_filter.mp h).2
  simpa using this

theorem getProofT_path_ne_nil (hash : Bytes → Bytes) (st : ViewState)
    (keyBytes : Bytes) (pf : TProof) (h : getProofT hash st keyBytes = .ok pf) :
    pf.path ≠ [] := by
  unfold getProofT at h
  dsimp only at h
  split at h
  · cases h
  · rename_i path hwalk
    have hne : path ≠ [] := by
      unfold visitPathToKey at hwalk
      split at hwalk
      · cases hwalk
      · exact visitAux_ok_ne_nil _ _ _ _ _ _ hwalk
    have hmapne : path.map (fun p => p.2.asProofNode hash p.1) ≠ [] := by
      intro hcon
      exact hne (List.map_eq_nil_iff.mp hcon)
    split at h
    · cases h
    · split at h
      · cases h
        exact hmapne
      · split at h
        · cases h
          exact hmapne
        · split at h
          · cases h
          · cases h
            intro hcon
            simp at hcon

/-- C3 counterexample: the claim "GetRangeProof fails with InvalidMaxLength
whenever maxLength <= 0" is false as stated: when both bounds are present
with start > end *and* maxLength <= 0, the code returns StartAfterEnd (the
start/end test at node.go line 527 precedes the maxLength test at line
531). -/
theorem range_proof_invalid_max_length_not_returned :
    (GetRangeProofT (fun v => v) ⟨false, [], [], [([], ⟨none, []⟩)]⟩
        (some [1]) (some [0]) 0).1 = .error .StartAfterEnd ∧
    (Except.error .StartAfterEnd : Except MerkleErr RangeProofT) ≠
      .error .InvalidMaxLength :=
  ⟨rfl, by simp⟩

/-- C3 amended: GetRangeProof fails with StartAfterEnd whenever both bounds
are present and start > end, and fails with InvalidMaxLength whenever
maxLength <= 0 and the start/end rejection does not apply (StartAfterEnd is
checked first); both rejections happen at entry, before any proof
construction or node-ID calculation, and leave the view's state unchanged
(the returned state is the input state). -/
theorem range_proof_input_validation (hash : Bytes → Bytes) (st : ViewState)
    (start end_ : Option Bytes) (maxLength : Int) :
    (startAfterEndB start end_ = true →
      GetRangeProofT hash st start end_ maxLength = (.error .StartAfterEnd, st)) ∧
    (startAfterEndB start end_ = false → maxLength ≤ 0 →
      GetRangeProofT hash st start end_ maxLength = (.error .InvalidMaxLength, st)) := by
  constructor
  · intro h
    simp [GetRangeProofT, h]
  · intro h hm
    simp [GetRangeProofT, h, hm]

theorem range_proof_input_validation_witness :
    GetRangeProofT (fun v => v) ⟨false, [], [], []⟩ (some [1]) (some [0]) 5 =
      (.error .StartAfterEnd, ⟨false, [], [], []⟩) ∧
    GetRangeProofT (fun v => v) ⟨false, [], [], []⟩ (some [0]) (some [1]) 0 =
      (.error .InvalidMaxLength, ⟨false, [], [], []⟩) :=
  ⟨(range_proof_input_validation (fun v => v) ⟨false, [], [], []⟩
      (some [1]) (some [0]) 5).1 rfl,
   (range_proof_input_validation (fun v => v) ⟨false, [], [], []⟩
      (some [0]) (some [1]) 0).2 rfl (by decide)⟩

theorem countCommon_nil_right : ∀ (l : List ProofNode), countCommon l [] = 0 := by
  intro l
  cases l <;> rfl

/-- C4: contents of a successful GetRangeProof.  The returned key-value pairs
number at most maxLength, all lie in [start, end], and are enumerated in
strictly ascending byte order; the end proof is the proof path for the
greatest emitted key, or for the end bound when no pairs were emitted and an
end bound is present; and when no pairs were emitted and neither bound is
present (the only way all three of KeyValues, StartProof and EndProof can be
empty), the end proof is the proof path for the root key. -/
theorem range_proof_contents (hash : Bytes → Bytes) (st stM : ViewState)
    (start end_ : Option Bytes) (maxLength : Int) (rp : RangeProofT)
    (h : GetRangeProofT hash st start end_ maxLength = (.ok rp, stM)) :
    rp.keyValues.length ≤ maxLength.toNat ∧
    (∀ kv ∈ rp.keyValues, ∀ s, start = some s → ltBytes kv.1 s = false) ∧
    (∀ kv ∈ rp.keyValues, ∀ eb, end_ = some eb → ltBytes eb kv.1 = false) ∧
    rp.keyValues.Pairwise (fun p q => ltBytes p.1 q.1 = true) ∧
    (∀ kv, rp.keyValues.getLast? = some kv →
      ∃ pf, getProofT hash stM kv.1 = .ok pf ∧ rp.endProof = pf.path) ∧
    (rp.keyValues = [] → ∀ eb, end_ = some eb →
      ∃ pf, getProofT hash stM eb = .ok pf ∧ rp.endProof = pf.path) ∧
    (rp.keyValues = [] → start = none → end_ = none →
      ∃ pf, getProofT hash stM rootKeyBytes = .ok pf ∧ rp.endProof = pf.path) := by
  unfold GetRangeProofT at h
  split at h
  · injection h with h1 h2
    cases h1
  · split at h
    · injection h with h1 h2
      cases h1
    · split at h
      · injection h with h1 h2
        cases h1
      · rename_i stM' hcalc
        dsimp only at h
        generalize hK : collectKV (iteratorFrom stM' (start.getD []))
            maxLength.toNat end_ = kvs at h
        have hlen : kvs.length ≤ maxLength.toNat :=
          hK ▸ collectKV_length (iteratorFrom stM' (start.getD [])) maxLength.toNat end_
        have hsub : List.Sublist kvs (iteratorFrom stM' (start.getD [])) :=
          hK ▸ collectKV_sublist (iteratorFrom stM' (start.getD [])) maxLength.toNat end_
        have hpw : kvs.Pairwise (fun p q => ltBytes p.1 q.1 = true) :=
          (iteratorFrom_pairwise stM' (start.getD [])).sublist hsub
        have hge : ∀ kv ∈ kvs, ∀ s, start = some s → ltBytes kv.1 s = false := by
          intro kv hm s hs
          have hx := iteratorFrom_ge_start stM' (start.getD []) kv (hsub.subset hm)
          rw [hs] at hx
          simpa using hx
        have hle : ∀ kv ∈ kvs, ∀ eb, end_ = some eb → ltBytes eb kv.1 = false := by
          intro kv hm eb he
          subst he
          exact collectKV_le_end (iteratorFrom stM' (start.getD []))
            maxLength.toNat eb kv (hK ▸ hm)
        clear hK
        split at h
        case h_1 e =>
          injection h with h1 h2
          cases h1
        case h_2 endProof hEnd =>
          split at hEnd
          case h_1 kv0 hglast =>
            split at hEnd
            case h_1 => cases hEnd
            case h_2 pf hpf =>
              injection hEnd with hEnd
              subst hEnd
              have hkvs_ne : kvs ≠ [] := by
                intro hcon
                rw [hcon] at hglast
                cases hglast
              have hlastclause : ∀ kv, kvs.getLast? = some kv →
                  ∃ pfx, getProofT hash stM' kv.1 = .ok pfx ∧ pf.path = pfx.path := by
                intro kv hkv
                rw [hglast] at hkv
                injection hkv with hkv
                subst hkv
                exact ⟨pf, hpf, rfl⟩
              split at h
              case h_1 s =>
                split at h
                case h_1 => injection h with h1 h2; cases h1
                case h_2 sp hsp =>
                  split at h
                  case isTrue hcond =>
                    exfalso
                    exact hkvs_ne (List.isEmpty_iff.mp
                      ((Bool.and_eq_true _ _).mp hcond).2)
                  case isFalse hcond =>
                    injection h with h1 h2
                    injection h1 with h1
                    subst h1
                    subst h2
                    exact ⟨hlen, hge, hle, hpw, hlastclause,
                      fun hnil => absurd hnil hkvs_ne,
                      fun hnil => absurd hnil hkvs_ne⟩
              case h_2 =>
                split at h
                case isTrue hcond =>
                  exfalso
                  exact hkvs_ne (List.isEmpty_iff.mp
                    ((Bool.and_eq_true _ _).mp hcond).2)
                case isFalse hcond =>
                  injection h with h1 h2
                  injection h1 with h1
                  subst h1
                  subst h2
                  exact ⟨hlen, hge, hle, hpw, hlastclause,
                    fun hnil => absurd hnil hkvs_ne,
                    fun hnil => absurd hnil hkvs_ne⟩
          case h_2 hglast =>
            have hkvs_nil : kvs = [] := List.getLast?_eq_none_iff.mp hglast
            subst hkvs_nil
            split at hEnd
            case h_1 =>
              split at hEnd
              case h_1 => cases hEnd
              case h_2 pf hpf =>
                injection hEnd with hEnd
                subst hEnd
                have hpne : pf.path ≠ [] := getProofT_path_ne_nil hash stM' _ pf hpf
                split at h
                case h_1 s =>
                  split at h
                  case h_1 => injection h with h1 h2; cases h1
                  case h_2 sp hsp =>
                    split at h
                    case isTrue hcond =>
                      exfalso
                      exact hpne (List.isEmpty_iff.mp
                        ((Bool.and_eq_true _ _).mp ((Bool.and_eq_true _ _).mp hcond).1).2)
                    case isFalse hcond =>
                      injection h with h1 h2
                      injection h1 with h1
                      subst h1
                      subst h2
                      refine ⟨by simp, by simp, by simp, by simp, ?_, ?_, ?_⟩
                      · intro kv hkv
                        cases hkv
                      · intro _ eb' heb'
                        injection heb' with heb'
                        subst heb'
                        exact ⟨pf, hpf, rfl⟩
                      · intro _ _ hcon
                        cases hcon
                case h_2 =>
                  split at h
                  case isTrue hcond =>
                    exfalso
                    exact hpne (List.isEmpty_iff.mp
                      ((Bool.and_eq_true _ _).mp hcond).1)
                  case isFalse hcond =>
                    injection h with h1 h2
                    injection h1 with h1
                    subst h1
                    subst h2
                    refine ⟨by simp, by simp, by simp, by simp, ?_, ?_, ?_⟩
                    · intro kv hkv
                      cases hkv
                    · intro _ eb' heb'
                      injection heb' with heb'
                      subst heb'
                      exact ⟨pf, hpf, rfl⟩
                    · intro _ _ hcon
                      cases hcon
            case h_2 =>
              injection hEnd with hEnd
              subst hEnd
              split at h
              case h_1 =>
                split at h
                case h_1 => injection h with h1 h2; cases h1
                case h_2 sp hsp =>
                  have hspne : sp.path ≠ [] := getProofT_path_ne_nil hash stM' _ sp hsp
                  rw [countCommon_nil_right, List.drop_zero] at h
                  split at h
                  case isTrue hcond =>
                    exfalso
                    exact hspne (List.isEmpty_iff.mp
                      ((Bool.and_eq_true _ _).mp ((Bool.and_eq_true _ _).mp hcond).1).1)
                  case isFalse hcond =>
                    injection h with h1 h2
                    injection h1 with h1
                    subst h1
                    subst h2
                    refine ⟨by simp, by simp, by simp, by simp, ?_, ?_, ?_⟩
                    · intro kv hkv
                      cases hkv
                    · intro _ eb' heb'
                      cases heb'
                    · intro _ hcon _
                      cases hcon
              case h_2 =>
                split at h
                case isTrue hcond =>
                  split at h
                  case h_1 => injection h with h1 h2; cases h1
                  case h_2 rpf hrpf =>
                    injection h with h1 h2
                    injection h1 with h1
                    subst h1
                    subst h2
                    refine ⟨by simp, by simp, by simp, by simp, ?_, ?_, ?_⟩
                    · intro kv hkv
                      cases hkv
                    · intro _ eb' heb'
                      cases heb'
                    · intro _ _ _
                      exact ⟨rpf, hrpf, rfl⟩
                case isFalse hcond =>
                  exfalso
                  simp at hcond

theorem range_proof_contents_witness :
    c4wRp.keyValues.length ≤ (1 : Int).toNat ∧
    c4wRp.keyValues.Pairwise (fun p q => ltBytes p.1 q.1 = true) :=
  ⟨(range_proof_contents (fun v => v) c4wSt c4wStM none none 1 c4wRp rfl).1,
   (range_proof_contents (fun v => v) c4wSt c4wStM none none 1 c4wRp rfl).2.2.2.1⟩
